import Mathlib

/-!
# MiniOOL `LL1parser/LL1syntaxanalyzer.c`: an LL(1) recognizer for `(a|b)* '.'`

A shallow embedding of the C program and theorems about it.

* The standard input is a finite list of bytes; `getchar` yields the next byte as an
  `int`, or `EOF` once the list is exhausted.
* The global `char CC` holds an `Int`; storing `getchar()`'s `int` into it narrows the
  value (`toChar`).  Whether plain `char` is signed is implementation-defined, so every
  procedure takes the flag `sc` ("plain `char` is signed") and the theorems hold for both.
* `exit` ends the run: a procedure either returns to its caller or exits with a status.
* `S` is recursive; its embedding takes the recursion depth available as `fuel` and
  yields `none` when the nesting of `S` would exceed it.
-/

set_option maxRecDepth 8000

namespace LL1

/-! ## Data model -/

/-- A byte of the input stream. -/
abbrev Byte := Fin 256

/-- The `int` value of a character constant of the source, such as `'a'`. -/
def ord (c : Char) : Int := (c.toNat : Int)

/-- The stream byte that encodes an ASCII character. -/
def byte (c : Char) : Byte := Fin.ofNat c.toNat

/-- The bytes of a text, to write input streams legibly. -/
def bytes (s : String) : List Byte := s.toList.map byte

/-- The value `getchar` returns at end of stream (`EOF` of `<stdio.h>`). -/
def EOF : Int := -1

/-- Narrowing of an `int` to plain `char`, as in `*C = getchar()`: two's-complement
wrap-around into `-128..127` when plain `char` is signed (`sc = true`), reduction
modulo 256 when it is unsigned. -/
def toChar (sc : Bool) (v : Int) : Int :=
  if sc then (v + 128) % 256 - 128 else v % 256

/-- The two statuses the program passes to `exit`. -/
inductive ExitStatus where
  | EXIT_SUCCESS
  | EXIT_FAILURE
  deriving DecidableEq, Repr

/-- The state of the process: the global `CC`, the unread part of the standard input,
the text written to the standard output, and (ghost) the number of `getchar` calls made
so far. -/
structure State where
  CC : Int
  stdin : List Byte
  stdout : String
  calls : Nat
  deriving DecidableEq, Repr

/-- How the execution of a procedure ends: it returns to its caller, or the process
exits with a status. -/
inductive Run where
  | returned (st : State)
  | exited (status : ExitStatus) (st : State)
  deriving DecidableEq, Repr

/-- The state in which a run ends. -/
def Run.state : Run → State
  | .returned st => st
  | .exited _ st => st

/-- The state at program start on a given input: `CC` has static storage, so it is
zero-initialised; nothing has been read or written. -/
def initState (input : List Byte) : State :=
  { CC := 0, stdin := input, stdout := "", calls := 0 }

/-! ## The program -/

/-- The library call `getchar()`: the next byte of the stream as a non-negative `int`,
or `EOF` when the stream is exhausted. -/
def getchar (st : State) : Int × State :=
  match st.stdin with
  | [] => (EOF, { st with calls := st.calls + 1 })
  | b :: rest => ((b.val : Int), { st with stdin := rest, calls := st.calls + 1 })

/-- The procedure `stop`: `printf("\nSyntax error: %s\n", M); exit(EXIT_FAILURE);`. -/
def stop (M : String) (st : State) : Run :=
  .exited .EXIT_FAILURE { st with stdout := st.stdout ++ "\nSyntax error: " ++ M ++ "\n" }

/-- The loop of `readChar`, `while ((*C = getchar()) == ' ');`, with `C = &CC`, by
recursion on the unread stream `l` of the state: each round stores the narrowed result
of `getchar()` in `CC` and goes on while it equals `' '`. -/
def readCharLoop (sc : Bool) : List Byte → State → State
  | [], st => { st with CC := toChar sc EOF, stdin := [], calls := st.calls + 1 }
  | b :: rest, st =>
    if toChar sc (b.val : Int) = ord ' ' then
      readCharLoop sc rest { st with CC := toChar sc (b.val : Int), stdin := rest, calls := st.calls + 1 }
    else
      { st with CC := toChar sc (b.val : Int), stdin := rest, calls := st.calls + 1 }

/-- The procedure `readChar(&CC)` (every call site passes `&CC`). -/
def readChar (sc : Bool) (st : State) : State :=
  readCharLoop sc st.stdin st

/-- The procedure `T`. -/
def T (sc : Bool) (st : State) : Run :=
  if st.CC = ord 'a' ∨ st.CC = ord 'b' then
    .returned (readChar sc st)
  else stop "'a' or 'b' expected." st

/-- The procedure `S`; `fuel` bounds the nesting depth of its recursion. -/
def S (sc : Bool) : Nat → State → Option Run
  | 0, _ => none
  | fuel + 1, st =>
    if st.CC = ord 'a' ∨ st.CC = ord 'b' then
      match T sc st with
      | .returned st1 => S sc fuel st1
      | .exited status st1 => some (.exited status st1)
    else if st.CC = ord '.' then some (.returned st)
    else some (stop "'a', 'b' or '.' expected." st)

/-- The procedure `P`. -/
def P (sc : Bool) (fuel : Nat) (st : State) : Option Run :=
  match S sc fuel st with
  | none => none
  | some (.returned st1) =>
    if st1.CC = ord '.' then some (.returned st1)
    else some (stop "'.' expected." st1)
  | some (.exited status st1) => some (.exited status st1)

/-- The procedure `main`: `readChar(&CC); P(); printf("\nCorrect sentence.\n");
exit(EXIT_SUCCESS);`. -/
def main (sc : Bool) (fuel : Nat) (st : State) : Option Run :=
  match P sc fuel (readChar sc st) with
  | none => none
  | some (.returned st1) =>
    some (.exited .EXIT_SUCCESS { st1 with stdout := st1.stdout ++ "\nCorrect sentence.\n" })
  | some (.exited status st1) => some (.exited status st1)

/-! ## Vocabulary of the claims -/

/-- The byte is the space character. -/
def isSpace (b : Byte) : Bool := b = byte ' '

/-- The byte is one of the symbols `a`, `b`. -/
def isAB (b : Byte) : Bool := b = byte 'a' || b = byte 'b'

/-- The byte is a space, an `a` or a `b`: the bytes the recognizer passes over. -/
def isPassed (b : Byte) : Bool := isSpace b || isAB b

/-- The first byte of the stream that is not a space, `a` or `b`, if there is one. -/
def firstOther (l : List Byte) : Option Byte := (l.dropWhile isPassed).head?

/-- The number of bytes before the first byte that is not a space, `a` or `b` (the
length of the stream when there is no such byte). -/
def stopIndex (l : List Byte) : Nat := (l.takeWhile isPassed).length

/-- The number of `a`/`b` symbols before the first byte that is not a space, `a` or
`b`. -/
def symbolCount (l : List Byte) : Nat := ((l.takeWhile isPassed).filter isAB).length

/-- The `int` that `getchar` yields for an optional next byte. -/
def intOf : Option Byte → Int
  | some b => (b.val : Int)
  | none => EOF

/-- The state in which the scan of the stream of `st` ends: `CC` holds the first byte
that is not a space, `a` or `b` (the narrowed `EOF` when there is none), the stream is
positioned just after it, and one `getchar` call was made per byte up to it. -/
def scanState (sc : Bool) (st : State) : State :=
  { CC := toChar sc (intOf (firstOther st.stdin)),
    stdin := (st.stdin.dropWhile isPassed).tail,
    stdout := st.stdout,
    calls := st.calls + stopIndex st.stdin + 1 }

/-- What is observable of a finished run of the program: the exit status and the text
written to the standard output (`none` if the process did not exit). -/
def outcome : Option Run → Option (ExitStatus × String)
  | some (.exited status st) => some (status, st.stdout)
  | _ => none

/-- The run ended with the success status, having written `Correct sentence.` and
nothing else. -/
def Accepted (r : Option Run) : Prop :=
  outcome r = some (.EXIT_SUCCESS, "\nCorrect sentence.\n")

/-- The run ended through `stop` called with the diagnostic `M`: failure status, and
the output is the syntax-error line carrying `M`. -/
def RejectedWith (M : String) (r : Option Run) : Prop :=
  outcome r = some (.EXIT_FAILURE, "\nSyntax error: " ++ M ++ "\n")

/-- The diagnostic of `S`. -/
def msgS : String := "'a', 'b' or '.' expected."

/-- The diagnostic of `T`. -/
def msgT : String := "'a' or 'b' expected."

/-- The diagnostic of `P`. -/
def msgP : String := "'.' expected."

/-- The run ended through `stop`, with one of the three diagnostics of the source. -/
def Rejected (r : Option Run) : Prop :=
  RejectedWith msgT r ∨ RejectedWith msgS r ∨ RejectedWith msgP r

instance (r : Option Run) : Decidable (Accepted r) :=
  inferInstanceAs (Decidable (_ = _))

instance (M : String) (r : Option Run) : Decidable (RejectedWith M r) :=
  inferInstanceAs (Decidable (_ = _))

instance (r : Option Run) : Decidable (Rejected r) :=
  inferInstanceAs (Decidable (_ ∨ _ ∨ _))

/-- The input with every space character deleted. -/
def deleteSpaces (l : List Byte) : List Byte := l.filter (fun b => !isSpace b)

/-- The input is a word of `(a|b)*` followed by `.`, with any number of spaces inserted
before, between or after its symbols: once the spaces are deleted, the last symbol is
the terminator and every symbol before it is `a` or `b`. -/
def InLanguage (input : List Byte) : Prop :=
  (deleteSpaces input).getLast? = some (byte '.') ∧
    ∀ c ∈ (deleteSpaces input).dropLast, c = byte 'a' ∨ c = byte 'b'

instance (input : List Byte) : Decidable (InLanguage input) :=
  inferInstanceAs (Decidable (_ ∧ _))

/-- The check that `P` makes once `S` has returned, the second statement of its body:
`if (CC == '.') ; else stop("'.' expected.");`. -/
def terminatorCheck (st : State) : Run :=
  if st.CC = ord '.' then .returned st else stop "'.' expected." st

/-- The states of the state machine of the spec's design. -/
inductive Phase where
  | Start
  | Repeating
  | Terminated
  | Error
  deriving DecidableEq, Repr

/-- The transition of the spec's machine out of `Repeating`, decided by the lookahead:
stay in `Repeating` on `a` or `b`, go to `Terminated` on `.`, to `Error` on anything
else. -/
def transition (cc : Int) : Phase :=
  if cc = ord 'a' ∨ cc = ord 'b' then .Repeating
  else if cc = ord '.' then .Terminated
  else .Error

/-- The explicit loop of the spec's design, "while the lookahead is `a` or `b`: advance":
the machine stays in `Repeating`, consuming one symbol per round, until the lookahead
takes it to another state; `n` bounds the number of rounds. -/
def repeatLoop (sc : Bool) : Nat → State → Option (Phase × State)
  | 0, _ => none
  | n + 1, st =>
    match transition st.CC with
    | .Repeating => repeatLoop sc n (readChar sc st)
    | ph => some (ph, st)

/-- The recognizer flattened into the loop, as the spec words it: run the loop, then
accept (return normally) if the lookahead is `.`, that is in state `Terminated`, and
reject otherwise, with the diagnostic for the expected set `a`, `b`, `.`. -/
def recognizeByLoop (sc : Bool) (n : Nat) (st : State) : Option Run :=
  match repeatLoop sc n st with
  | none => none
  | some (.Terminated, st1) => some (.returned st1)
  | some (_, st1) => some (stop "'a', 'b' or '.' expected." st1)

/-- The whole machine of the spec's design: from `Start` prime the lookahead, run the
loop, and on acceptance end as `main` does. -/
def mainByLoop (sc : Bool) (n : Nat) (st : State) : Option Run :=
  match recognizeByLoop sc n (readChar sc st) with
  | none => none
  | some (.returned st1) =>
    some (.exited .EXIT_SUCCESS { st1 with stdout := st1.stdout ++ "\nCorrect sentence.\n" })
  | some (.exited status st1) => some (.exited status st1)

/-- The number of `a`/`b` symbols of the whole input. -/
def countAB (l : List Byte) : Nat := (l.filter isAB).length

/-- The measure that bounds the recursion of `S`: the bytes still unread, plus one when
the lookahead is a symbol yet to be consumed by `T`. -/
def pending (st : State) : Nat :=
  st.stdin.length + (if st.CC = ord 'a' ∨ st.CC = ord 'b' then 1 else 0)

/-! ## Character arithmetic -/

theorem ord_space : ord ' ' = 32 := by decide
theorem ord_a : ord 'a' = 97 := by decide
theorem ord_b : ord 'b' = 98 := by decide
theorem ord_dot : ord '.' = 46 := by decide

theorem byte_space : byte ' ' = 32 := by decide
theorem byte_a : byte 'a' = 97 := by decide
theorem byte_b : byte 'b' = 98 := by decide
theorem byte_dot : byte '.' = 46 := by decide

/-- Narrowing a stream byte gives an ASCII code exactly when the byte is that code. -/
theorem toChar_val_eq_iff (sc : Bool) (b : Byte) (c : Byte) (hc : c.val < 128) :
    toChar sc (b.val : Int) = (c.val : Int) ↔ b = c := by
  have hb := b.isLt
  rw [Fin.ext_iff]
  cases sc <;> simp only [toChar, Bool.false_eq_true, if_false, if_true] <;> omega

/-- The narrowed `EOF` is no ASCII code. -/
theorem toChar_EOF_ne (sc : Bool) (c : Int) (hc : 0 ≤ c ∧ c < 128) : toChar sc EOF ≠ c := by
  cases sc <;> simp only [toChar, EOF, Bool.false_eq_true, if_false, if_true] <;> omega

theorem toChar_eq_space (sc : Bool) (b : Byte) :
    toChar sc (b.val : Int) = ord ' ' ↔ b = byte ' ' := by
  rw [ord_space, byte_space]; exact toChar_val_eq_iff sc b 32 (by decide)

theorem toChar_eq_a (sc : Bool) (b : Byte) :
    toChar sc (b.val : Int) = ord 'a' ↔ b = byte 'a' := by
  rw [ord_a, byte_a]; exact toChar_val_eq_iff sc b 97 (by decide)

theorem toChar_eq_b (sc : Bool) (b : Byte) :
    toChar sc (b.val : Int) = ord 'b' ↔ b = byte 'b' := by
  rw [ord_b, byte_b]; exact toChar_val_eq_iff sc b 98 (by decide)

theorem toChar_eq_dot (sc : Bool) (b : Byte) :
    toChar sc (b.val : Int) = ord '.' ↔ b = byte '.' := by
  rw [ord_dot, byte_dot]; exact toChar_val_eq_iff sc b 46 (by decide)

/-! ## The loop of `readChar` -/

/-- The embedding of `readChar` satisfies the equation of the source loop: call
`getchar`, store the narrowed result in `CC`, and repeat while it is a space. -/
theorem readChar_loop (sc : Bool) (st : State) :
    readChar sc st =
      (if toChar sc (getchar st).1 = ord ' '
        then readChar sc { (getchar st).2 with CC := toChar sc (getchar st).1 }
        else { (getchar st).2 with CC := toChar sc (getchar st).1 }) := by
  obtain ⟨cc, inp, out, n⟩ := st
  cases inp with
  | nil =>
    have h := toChar_EOF_ne sc 32 (by omega)
    simp only [readChar, readCharLoop, getchar, ord_space, h, if_false]
  | cons b rest => simp only [readChar, readCharLoop, getchar]

/-! ## The scan performed by `S` -/

theorem isPassed_iff (b : Byte) :
    isPassed b = true ↔ b = byte ' ' ∨ b = byte 'a' ∨ b = byte 'b' := by
  simp [isPassed, isSpace, isAB]

/-- After an advance, `S` run with enough fuel passes over every space, `a` and `b`
and stops on the first other byte: it returns when that byte is the terminator and
calls `stop` with its own diagnostic otherwise (also at end of stream). -/
theorem S_readChar (sc : Bool) : ∀ (l : List Byte) (st : State) (fuel : Nat),
    st.stdin = l → symbolCount l < fuel →
    S sc fuel (readChar sc st) =
      some (if firstOther l = some (byte '.') then .returned (scanState sc st)
            else stop msgS (scanState sc st)) := by
  intro l
  induction l with
  | nil =>
    intro st fuel hl hf
    obtain ⟨cc, inp, out, n⟩ := st
    simp only at hl
    subst hl
    obtain ⟨f, rfl⟩ : ∃ f, fuel = f + 1 := ⟨fuel - 1, by omega⟩
    have h1 := toChar_EOF_ne sc 97 (by omega)
    have h2 := toChar_EOF_ne sc 98 (by omega)
    have h3 := toChar_EOF_ne sc 46 (by omega)
    simp [readChar, readCharLoop, S, ord_a, ord_b, ord_dot, h1, h2, h3, firstOther,
      scanState, stopIndex, intOf, msgS]
  | cons b rest ih =>
    intro st fuel hl hf
    obtain ⟨cc, inp, out, n⟩ := st
    simp only at hl
    subst hl
    by_cases hsp : b = byte ' '
    · -- a space: the loop of `readChar` goes on
      have hp : isPassed b = true := (isPassed_iff b).2 (Or.inl hsp)
      have hab : isAB b = false := by subst hsp; decide
      have hrc : readChar sc ⟨cc, b :: rest, out, n⟩
          = readChar sc ⟨toChar sc (b.val : Int), rest, out, n + 1⟩ := by
        simp [readChar, readCharLoop, toChar_eq_space, hsp]
      have hf1 : symbolCount rest < fuel := by
        simpa [symbolCount, List.takeWhile_cons, hp, List.filter_cons, hab] using hf
      rw [hrc, ih ⟨toChar sc (b.val : Int), rest, out, n + 1⟩ fuel rfl hf1]
      simp [firstOther, scanState, stopIndex, List.takeWhile_cons, List.dropWhile_cons, hp,
        Nat.add_assoc, Nat.add_comm 1]
    · have hrc : readChar sc ⟨cc, b :: rest, out, n⟩
          = ⟨toChar sc (b.val : Int), rest, out, n + 1⟩ := by
        simp [readChar, readCharLoop, toChar_eq_space, hsp]
      rw [hrc]
      by_cases hab : b = byte 'a' ∨ b = byte 'b'
      · -- a symbol: `T` advances and `S` recurses
        have hp : isPassed b = true := (isPassed_iff b).2 (Or.inr hab)
        have hab1 : isAB b = true := by simpa [isAB] using hab
        obtain ⟨f, rfl⟩ : ∃ f, fuel = f + 1 := ⟨fuel - 1, by omega⟩
        have hf1 : symbolCount rest < f := by
          simpa [symbolCount, List.takeWhile_cons, hp, List.filter_cons, hab1] using hf
        have hS : S sc (f + 1) ⟨toChar sc (b.val : Int), rest, out, n + 1⟩
            = S sc f (readChar sc ⟨toChar sc (b.val : Int), rest, out, n + 1⟩) := by
          simp [S, T, toChar_eq_a, toChar_eq_b, hab]
        rw [hS, ih ⟨toChar sc (b.val : Int), rest, out, n + 1⟩ f rfl hf1]
        simp [firstOther, scanState, stopIndex, List.takeWhile_cons, List.dropWhile_cons, hp,
          Nat.add_assoc, Nat.add_comm 1]
      · -- any other byte: the scan stops here
        have hp : isPassed b = false := by
          rw [Bool.eq_false_iff, Ne, isPassed_iff]; tauto
        obtain ⟨f, rfl⟩ : ∃ f, fuel = f + 1 := ⟨fuel - 1, by omega⟩
        by_cases hd : b = byte '.'
        · subst hd
          have h1 : byte '.' ≠ byte 'a' := by decide
          have h2 : byte '.' ≠ byte 'b' := by decide
          simp [S, toChar_eq_a, toChar_eq_b, toChar_eq_dot, h1, h2, firstOther, scanState,
            stopIndex, List.takeWhile_cons, List.dropWhile_cons, hp, intOf]
        · simp [S, toChar_eq_a, toChar_eq_b, toChar_eq_dot, hab, hd, firstOther, scanState,
            stopIndex, List.takeWhile_cons, List.dropWhile_cons, hp, intOf, msgS]

/-- The terminator check of `P` after the scan. -/
theorem P_readChar (sc : Bool) (fuel : Nat) (st : State) (hf : symbolCount st.stdin < fuel) :
    P sc fuel (readChar sc st) =
      some (if firstOther st.stdin = some (byte '.') then .returned (scanState sc st)
            else stop msgS (scanState sc st)) := by
  rw [P, S_readChar sc st.stdin st fuel rfl hf]
  by_cases h : firstOther st.stdin = some (byte '.')
  · have hcc : (scanState sc st).CC = ord '.' := by
      simp [scanState, h, intOf, toChar_eq_dot]
    simp [h, hcc]
  · simp [h, stop]

/-- What a run of `main` does, given enough fuel: it scans to the first byte that is
not a space, `a` or `b`, accepts when that byte is the terminator, and otherwise stops
with the diagnostic of `S`. -/
theorem main_eq (sc : Bool) (fuel : Nat) (st : State) (hf : symbolCount st.stdin < fuel) :
    main sc fuel st =
      some (if firstOther st.stdin = some (byte '.') then
              .exited .EXIT_SUCCESS
                { scanState sc st with stdout := st.stdout ++ "\nCorrect sentence.\n" }
            else stop msgS (scanState sc st)) := by
  rw [main, P_readChar sc fuel st hf]
  by_cases h : firstOther st.stdin = some (byte '.')
  · simp [h, scanState]
  · simp [h, stop]

/-- The outcome of a run on a given input is decided by the first byte that is not a
space, `a` or `b`. -/
theorem outcome_main (sc : Bool) (fuel : Nat) (input : List Byte)
    (hf : symbolCount input < fuel) :
    outcome (main sc fuel (initState input)) =
      some (if firstOther input = some (byte '.') then
              (.EXIT_SUCCESS, "\nCorrect sentence.\n")
            else (.EXIT_FAILURE, "\nSyntax error: " ++ msgS ++ "\n")) := by
  rw [main_eq sc fuel (initState input) hf]
  by_cases h : firstOther input = some (byte '.')
  · simp [h, initState, outcome]
  · simp [h, initState, outcome, stop, scanState, String.append_assoc]

theorem accepted_iff (sc : Bool) (fuel : Nat) (input : List Byte)
    (hf : symbolCount input < fuel) :
    Accepted (main sc fuel (initState input)) ↔ firstOther input = some (byte '.') := by
  rw [Accepted, outcome_main sc fuel input hf]
  by_cases h : firstOther input = some (byte '.') <;> simp [h]

theorem rejectedWith_msgS_iff (sc : Bool) (fuel : Nat) (input : List Byte)
    (hf : symbolCount input < fuel) :
    RejectedWith msgS (main sc fuel (initState input)) ↔
      firstOther input ≠ some (byte '.') := by
  rw [RejectedWith, outcome_main sc fuel input hf]
  by_cases h : firstOther input = some (byte '.') <;> simp [h]

theorem not_accepted_of_rejected (r : Option Run) (h : Rejected r) : ¬ Accepted r := by
  intro ha
  rw [Accepted] at ha
  rcases h with h | h | h <;> rw [RejectedWith, ha] at h <;> simp at h

/-! ## Facts about the vocabulary -/

/-- The language membership in the form of the regular expression: the input without
its spaces is `w ++ "."` for some word `w` over `a`, `b`. -/
theorem inLanguage_iff (input : List Byte) :
    InLanguage input ↔
      ∃ w : List Byte, (∀ c ∈ w, c = byte 'a' ∨ c = byte 'b') ∧
        deleteSpaces input = w ++ [byte '.'] := by
  constructor
  · rintro ⟨hlast, hall⟩
    refine ⟨(deleteSpaces input).dropLast, hall, ?_⟩
    rcases List.eq_nil_or_concat (deleteSpaces input) with h | ⟨l, b, h⟩
    · rw [h] at hlast; simp at hlast
    · rw [h] at hlast ⊢
      simp at hlast
      simp [hlast]
  · rintro ⟨w, hw, h⟩
    refine ⟨by rw [h]; simp, ?_⟩
    intro c hc
    rw [h, List.dropLast_concat] at hc
    exact hw c hc

theorem firstOther_cons_passed (b : Byte) (l : List Byte) (h : isPassed b = true) :
    firstOther (b :: l) = firstOther l := by
  simp [firstOther, List.dropWhile_cons, h]

theorem firstOther_cons_other (b : Byte) (l : List Byte) (h : isPassed b = false) :
    firstOther (b :: l) = some b := by
  simp [firstOther, List.dropWhile_cons, h]

theorem symbolCount_cons_other (b : Byte) (l : List Byte) (h : isPassed b = false) :
    symbolCount (b :: l) = 0 := by
  simp [symbolCount, List.takeWhile_cons, h]

/-- Passing over a prefix of spaces, `a`s and `b`s does not change the first other byte. -/
theorem firstOther_append (w l : List Byte) (hw : ∀ c ∈ w, isPassed c = true) :
    firstOther (w ++ l) = firstOther l := by
  rw [firstOther, List.dropWhile_append_of_pos hw, firstOther]

/-- Deleting the spaces does not change the first byte that is not a space, `a` or `b`. -/
theorem firstOther_deleteSpaces (l : List Byte) :
    firstOther (deleteSpaces l) = firstOther l := by
  induction l with
  | nil => rfl
  | cons b rest ih =>
    by_cases hsp : isSpace b = true
    · have hp : isPassed b = true := by simp [isPassed, hsp]
      rw [firstOther_cons_passed b rest hp, ← ih]
      simp [deleteSpaces, List.filter_cons, hsp]
    · have hd : deleteSpaces (b :: rest) = b :: deleteSpaces rest := by
        simp [deleteSpaces, List.filter_cons, hsp]
      rw [hd]
      by_cases hp : isPassed b = true
      · rw [firstOther_cons_passed b _ hp, firstOther_cons_passed b _ hp, ih]
      · simp only [Bool.not_eq_true] at hp
        rw [firstOther_cons_other b _ hp, firstOther_cons_other b _ hp]

/-- Deleting the spaces does not change the number of `a`/`b` symbols scanned. -/
theorem symbolCount_deleteSpaces (l : List Byte) :
    symbolCount (deleteSpaces l) = symbolCount l := by
  induction l with
  | nil => rfl
  | cons b rest ih =>
    by_cases hsp : isSpace b = true
    · have hp : isPassed b = true := by simp [isPassed, hsp]
      have hab : isAB b = false := by
        simp only [isSpace, decide_eq_true_eq] at hsp
        subst hsp; decide
      have hd : deleteSpaces (b :: rest) = deleteSpaces rest := by
        simp [deleteSpaces, List.filter_cons, hsp]
      rw [hd, ih]
      simp [symbolCount, List.takeWhile_cons, hp, List.filter_cons, hab]
    · have hd : deleteSpaces (b :: rest) = b :: deleteSpaces rest := by
        simp [deleteSpaces, List.filter_cons, hsp]
      rw [hd]
      by_cases hp : isPassed b = true
      · simp only [symbolCount, List.takeWhile_cons, hp, if_true, List.filter_cons] at ih ⊢
        split <;> simp [ih]
      · simp only [Bool.not_eq_true] at hp
        rw [symbolCount_cons_other b _ hp, symbolCount_cons_other b _ hp]

/-- The scan passes at most as many symbols as the input has bytes. -/
theorem symbolCount_le_length (l : List Byte) : symbolCount l ≤ l.length := by
  unfold symbolCount
  exact (List.length_filter_le _ _).trans (List.takeWhile_prefix _).length_le

/-- An input of the language has the terminator as its first byte that is not a space,
`a` or `b`. -/
theorem firstOther_of_inLanguage (input : List Byte) (h : InLanguage input) :
    firstOther input = some (byte '.') := by
  obtain ⟨w, hw, hd⟩ := (inLanguage_iff input).1 h
  rw [← firstOther_deleteSpaces, hd, firstOther_append w _ ?_]
  · rfl
  · intro c hc
    exact (isPassed_iff c).2 (Or.inr (hw c hc))

/-- When the first byte that is not a space, `a` or `b` is the terminator, the input
starts with a text of the language. -/
theorem exists_inits_inLanguage (input : List Byte)
    (h : firstOther input = some (byte '.')) :
    ∃ pre ∈ input.inits, InLanguage pre := by
  have hsplit := List.takeWhile_append_dropWhile isPassed input
  rw [firstOther] at h
  obtain ⟨t, ht⟩ : ∃ t, input.dropWhile isPassed = byte '.' :: t := by
    cases hd : input.dropWhile isPassed with
    | nil => rw [hd] at h; simp at h
    | cons x t =>
      rw [hd] at h
      simp only [List.head?_cons, Option.some.injEq] at h
      exact ⟨t, by rw [h]⟩
  refine ⟨input.takeWhile isPassed ++ [byte '.'], ?_, ?_⟩
  · rw [List.mem_inits]
    refine ⟨t, ?_⟩
    rw [List.append_assoc, List.singleton_append, ← ht, hsplit]
  · rw [inLanguage_iff]
    refine ⟨deleteSpaces (input.takeWhile isPassed), ?_, ?_⟩
    · intro c hc
      simp only [deleteSpaces, List.mem_filter, Bool.not_eq_true', isSpace,
        decide_eq_false_iff_not] at hc
      have hp := (isPassed_iff c).1 (List.mem_takeWhile_imp hc.1)
      tauto
    · have hdot : isSpace (byte '.') = false := by decide
      simp [deleteSpaces, List.filter_append, List.filter_cons, hdot]

/-- The bytes not yet scanned start at position `stopIndex`. -/
theorem dropWhile_eq_drop (l : List Byte) :
    l.dropWhile isPassed = l.drop (stopIndex l) := by
  induction l with
  | nil => rfl
  | cons b rest ih =>
    by_cases hp : isPassed b = true
    · simp [stopIndex, List.takeWhile_cons, List.dropWhile_cons, hp] at ih ⊢
      exact ih
    · simp [stopIndex, List.takeWhile_cons, List.dropWhile_cons, hp]

/-- The first byte that is not a space, `a` or `b` sits at position `stopIndex`. -/
theorem firstOther_at_stopIndex (l : List Byte) : firstOther l = l[stopIndex l]? := by
  rw [firstOther, dropWhile_eq_drop, List.head?_drop]

theorem stopIndex_le_length (l : List Byte) : stopIndex l ≤ l.length :=
  (List.takeWhile_prefix _).length_le

/-- Every byte before position `stopIndex` is a space, an `a` or a `b`. -/
theorem passed_before_stopIndex (l : List Byte) :
    ∀ c ∈ l.take (stopIndex l), c = byte ' ' ∨ c = byte 'a' ∨ c = byte 'b' := by
  intro c hc
  have htake : l.take (stopIndex l) = l.takeWhile isPassed :=
    (List.prefix_iff_eq_take.1 (List.takeWhile_prefix isPassed)).symm
  rw [htake] at hc
  exact (isPassed_iff c).1 (List.mem_takeWhile_imp hc)

/-- The byte at position `stopIndex`, if any, is not a space, an `a` or a `b`. -/
theorem other_at_stopIndex (l : List Byte) (c : Byte) (hc : l[stopIndex l]? = some c) :
    ¬ (c = byte ' ' ∨ c = byte 'a' ∨ c = byte 'b') := by
  rw [← firstOther_at_stopIndex, firstOther] at hc
  have h := List.head?_dropWhile_not isPassed l
  rw [hc] at h
  simp only at h
  rw [← isPassed_iff, h]
  simp

/-- The final state of the scan, by positions of the input. -/
theorem scanState_initState (sc : Bool) (input : List Byte) :
    scanState sc (initState input) =
      { CC := toChar sc (intOf input[stopIndex input]?),
        stdin := input.drop (stopIndex input + 1),
        stdout := "",
        calls := stopIndex input + 1 } := by
  simp [scanState, initState, firstOther_at_stopIndex, dropWhile_eq_drop, List.tail_drop]

/-- The scan of a stream that consists of spaces, `a`s and `b`s followed by another
byte. -/
theorem scan_append (tw : List Byte) (x : Byte) (r : List Byte)
    (htw : ∀ c ∈ tw, isPassed c = true) (hx : isPassed x = false) :
    stopIndex (tw ++ x :: r) = tw.length ∧ firstOther (tw ++ x :: r) = some x ∧
      symbolCount (tw ++ x :: r) = (tw.filter isAB).length := by
  have e1 : (tw ++ x :: r).takeWhile isPassed = tw := by
    rw [List.takeWhile_append_of_pos htw, List.takeWhile_cons_of_neg (by simp [hx])]
    simp
  have e2 : (tw ++ x :: r).dropWhile isPassed = x :: r := by
    rw [List.dropWhile_append_of_pos htw, List.dropWhile_cons_of_neg (by simp [hx])]
  exact ⟨by rw [stopIndex, e1], by rw [firstOther, e2]; rfl, by rw [symbolCount, e1]⟩

/-- The scan of an input depends only on its bytes up to and including the first one
that is not a space, `a` or `b`. -/
theorem scan_of_take_eq (l l2 : List Byte) (hlt : stopIndex l < l.length)
    (h : l2.take (stopIndex l + 1) = l.take (stopIndex l + 1)) :
    stopIndex l2 = stopIndex l ∧ firstOther l2 = firstOther l ∧
      symbolCount l2 = symbolCount l := by
  obtain ⟨x, hx⟩ : ∃ x, l[stopIndex l]? = some x := by
    rw [List.getElem?_eq_getElem hlt]; exact ⟨_, rfl⟩
  have hxp : isPassed x = false := by
    have := other_at_stopIndex l x hx
    rw [← isPassed_iff] at this
    simpa using this
  have htw : ∀ c ∈ l.take (stopIndex l), isPassed c = true :=
    fun c hc => (isPassed_iff c).2 (passed_before_stopIndex l c hc)
  have hlen : (l.take (stopIndex l)).length = stopIndex l :=
    List.length_take_of_le (stopIndex_le_length l)
  have key : ∀ m : List Byte, m.take (stopIndex l + 1) = l.take (stopIndex l + 1) →
      m = l.take (stopIndex l) ++ x :: m.drop (stopIndex l + 1) := by
    intro m hm
    have h1 : l.take (stopIndex l + 1) = l.take (stopIndex l) ++ [x] := by
      rw [List.take_succ, hx]; rfl
    conv_lhs => rw [← List.take_append_drop (stopIndex l + 1) m, hm, h1]
    simp
  obtain ⟨a1, a2, a3⟩ := scan_append _ x (l.drop (stopIndex l + 1)) htw hxp
  obtain ⟨b1, b2, b3⟩ := scan_append _ x (l2.drop (stopIndex l + 1)) htw hxp
  rw [← key l rfl] at a1 a2 a3
  rw [← key l2 h] at b1 b2 b3
  exact ⟨b1.trans a1.symm, b2.trans a2.symm, b3.trans a3.symm⟩

/-- A tab or newline before the first terminator keeps the terminator from being the
first byte that is not a space, `a` or `b`. -/
theorem firstOther_ne_dot_of_mem (pre suf : List Byte) (c : Byte)
    (hc : c = byte '\t' ∨ c = byte '\n') (hpre : byte '.' ∉ pre) :
    firstOther (pre ++ c :: suf) ≠ some (byte '.') := by
  induction pre with
  | nil =>
    have hp : isPassed c = false := by rcases hc with rfl | rfl <;> decide
    rw [List.nil_append, firstOther_cons_other c suf hp]
    rcases hc with rfl | rfl <;> decide
  | cons b rest ih =>
    simp only [List.mem_cons, not_or] at hpre
    by_cases hp : isPassed b = true
    · rw [List.cons_append, firstOther_cons_passed b _ hp]
      exact ih hpre.2
    · simp only [Bool.not_eq_true] at hp
      rw [List.cons_append, firstOther_cons_other b _ hp]
      intro h
      exact hpre.1 (Option.some.inj h).symm

/-- The loop of `readChar` overwrites `CC` before reading it. -/
theorem readChar_CC_irrelevant (sc : Bool) (cc1 cc2 : Int) (input : List Byte)
    (out : String) (n : Nat) :
    readChar sc ⟨cc1, input, out, n⟩ = readChar sc ⟨cc2, input, out, n⟩ := by
  cases input with
  | nil => simp [readChar, readCharLoop]
  | cons b rest => simp [readChar, readCharLoop]

/-- What the loop of `readChar` computes, by the leading spaces of the stream. -/
theorem readCharLoop_eq (sc : Bool) : ∀ (l : List Byte) (st : State),
    readCharLoop sc l st =
      { CC := toChar sc (intOf (l.dropWhile isSpace).head?),
        stdin := (l.dropWhile isSpace).tail,
        stdout := st.stdout,
        calls := st.calls + (l.takeWhile isSpace).length + 1 } := by
  intro l
  induction l with
  | nil => intro st; simp [readCharLoop, intOf]
  | cons b rest ih =>
    intro st
    by_cases hsp : b = byte ' '
    · have hs : isSpace b = true := by simp [isSpace, hsp]
      rw [readCharLoop, if_pos ((toChar_eq_space sc b).2 hsp), ih]
      simp [List.dropWhile_cons, List.takeWhile_cons, hs, Nat.add_assoc, Nat.add_comm 1]
    · have hs : isSpace b = false := by simp [isSpace, hsp]
      rw [readCharLoop, if_neg (fun h => hsp ((toChar_eq_space sc b).1 h))]
      simp [List.dropWhile_cons, List.takeWhile_cons, hs, intOf]

/-! ## The procedures from an arbitrary state -/

/-- Under the guard of `S` the procedure `T` advances and returns. -/
theorem T_of_ab (sc : Bool) (st : State) (h : st.CC = ord 'a' ∨ st.CC = ord 'b') :
    T sc st = .returned (readChar sc st) := by
  simp [T, h]

/-- One unfolding of `S` on a symbol: `T` advances and `S` recurses. -/
theorem S_step (sc : Bool) (f : Nat) (st : State) (h : st.CC = ord 'a' ∨ st.CC = ord 'b') :
    S sc (f + 1) st = S sc f (readChar sc st) := by
  simp [S, T, h]

/-- One unfolding of `S` on a lookahead that is no symbol. -/
theorem S_other (sc : Bool) (f : Nat) (st : State) (h : ¬ (st.CC = ord 'a' ∨ st.CC = ord 'b')) :
    S sc (f + 1) st =
      (if st.CC = ord '.' then some (.returned st) else some (stop msgS st)) := by
  rw [S, if_neg h]; rfl

/-- A result of `S` does not change when more fuel is given. -/
theorem S_mono (sc : Bool) : ∀ (f : Nat) (st : State) (r : Run),
    S sc f st = some r → S sc (f + 1) st = some r := by
  intro f
  induction f with
  | zero => intro st r h; simp [S] at h
  | succ f ih =>
    intro st r h
    by_cases hab : st.CC = ord 'a' ∨ st.CC = ord 'b'
    · rw [S_step sc f st hab] at h
      rw [S_step sc (f + 1) st hab]
      exact ih _ r h
    · rw [S_other sc f st hab] at h
      rw [S_other sc (f + 1) st hab]
      exact h

theorem S_mono_add (sc : Bool) (f : Nat) (st : State) (r : Run) (h : S sc f st = some r) :
    ∀ k, S sc (f + k) st = some r := by
  intro k
  induction k with
  | zero => exact h
  | succ k ih => exact S_mono sc (f + k) st r ih

/-- `readChar` writes nothing. -/
theorem readChar_stdout (sc : Bool) (st : State) : (readChar sc st).stdout = st.stdout := by
  rw [readChar, readCharLoop_eq]

/-- Whenever `S` returns, the lookahead is the terminator. -/
theorem S_returned_CC (sc : Bool) : ∀ (f : Nat) (st st1 : State),
    S sc f st = some (.returned st1) → st1.CC = ord '.' := by
  intro f
  induction f with
  | zero => intro st st1 h; simp [S] at h
  | succ f ih =>
    intro st st1 h
    by_cases hab : st.CC = ord 'a' ∨ st.CC = ord 'b'
    · rw [S_step sc f st hab] at h
      exact ih _ st1 h
    · rw [S_other sc f st hab] at h
      by_cases hd : st.CC = ord '.'
      · rw [if_pos hd, Option.some.injEq, Run.returned.injEq] at h
        rw [← h]; exact hd
      · rw [if_neg hd] at h
        simp [stop] at h

/-- Whenever `S` ends the run, it does so through `stop` with its own diagnostic,
appended to what had been written. -/
theorem S_exited (sc : Bool) : ∀ (f : Nat) (st st1 : State) (status : ExitStatus),
    S sc f st = some (.exited status st1) →
      status = .EXIT_FAILURE ∧
      st1.stdout = st.stdout ++ "\nSyntax error: " ++ msgS ++ "\n" := by
  intro f
  induction f with
  | zero => intro st st1 status h; simp [S] at h
  | succ f ih =>
    intro st st1 status h
    by_cases hab : st.CC = ord 'a' ∨ st.CC = ord 'b'
    · rw [S_step sc f st hab] at h
      have := ih _ st1 status h
      rw [readChar_stdout] at this
      exact this
    · rw [S_other sc f st hab] at h
      by_cases hd : st.CC = ord '.'
      · rw [if_pos hd] at h
        simp at h
      · rw [if_neg hd] at h
        simp only [stop, Option.some.injEq, Run.exited.injEq] at h
        obtain ⟨h1, h2⟩ := h
        exact ⟨h1.symm, by rw [← h2]⟩

/-- The body of `P` is `S` followed by the terminator check. -/
theorem P_eq (sc : Bool) (fuel : Nat) (st : State) :
    P sc fuel st =
      (match S sc fuel st with
        | none => none
        | some (.returned st1) => some (terminatorCheck st1)
        | some (.exited status st1) => some (.exited status st1)) := by
  rw [P]
  cases S sc fuel st with
  | none => rfl
  | some r =>
    cases r with
    | returned st1 =>
      simp only [terminatorCheck]
      split <;> rfl
    | exited status st1 => rfl

/-- The check of `P` never fails, so `P` ends exactly as `S` does. -/
theorem P_eq_S (sc : Bool) (fuel : Nat) (st : State) : P sc fuel st = S sc fuel st := by
  rw [P]
  cases h : S sc fuel st with
  | none => rfl
  | some r =>
    cases r with
    | returned st1 => simp [S_returned_CC sc fuel st st1 h]
    | exited status st1 => rfl

/-- With fuel for no more than the symbols to pass, the nesting of `S` exceeds the
fuel. -/
theorem S_readChar_none (sc : Bool) : ∀ (l : List Byte) (st : State) (fuel : Nat),
    st.stdin = l → fuel ≤ symbolCount l → S sc fuel (readChar sc st) = none := by
  intro l
  induction l with
  | nil =>
    intro st fuel _ hf
    have h0 : fuel = 0 := by
      have : symbolCount ([] : List Byte) = 0 := rfl
      omega
    subst h0
    rfl
  | cons b rest ih =>
    intro st fuel hl hf
    obtain ⟨cc, inp, out, n⟩ := st
    simp only at hl
    subst hl
    by_cases hsp : b = byte ' '
    · have hp : isPassed b = true := (isPassed_iff b).2 (Or.inl hsp)
      have hab : isAB b = false := by subst hsp; decide
      have hrc : readChar sc ⟨cc, b :: rest, out, n⟩
          = readChar sc ⟨toChar sc (b.val : Int), rest, out, n + 1⟩ := by
        simp [readChar, readCharLoop, toChar_eq_space, hsp]
      have hf1 : fuel ≤ symbolCount rest := by
        simpa [symbolCount, List.takeWhile_cons, hp, List.filter_cons, hab] using hf
      rw [hrc]
      exact ih _ fuel rfl hf1
    · have hrc : readChar sc ⟨cc, b :: rest, out, n⟩
          = ⟨toChar sc (b.val : Int), rest, out, n + 1⟩ := by
        simp [readChar, readCharLoop, toChar_eq_space, hsp]
      rw [hrc]
      cases fuel with
      | zero => rfl
      | succ f =>
        by_cases hab : b = byte 'a' ∨ b = byte 'b'
        · have hp : isPassed b = true := (isPassed_iff b).2 (Or.inr hab)
          have hab1 : isAB b = true := by simpa [isAB] using hab
          have hf1 : f ≤ symbolCount rest := by
            simpa [symbolCount, List.takeWhile_cons, hp, List.filter_cons, hab1] using hf
          have hcc : (⟨toChar sc (b.val : Int), rest, out, n + 1⟩ : State).CC = ord 'a' ∨
              (⟨toChar sc (b.val : Int), rest, out, n + 1⟩ : State).CC = ord 'b' := by
            simpa [toChar_eq_a, toChar_eq_b] using hab
          rw [S_step sc f _ hcc]
          exact ih _ f rfl hf1
        · have hp : isPassed b = false := by
            rw [Bool.eq_false_iff, Ne, isPassed_iff]; tauto
          rw [symbolCount_cons_other b rest hp] at hf
          omega

/-- The run of `main` gives no result exactly when the fuel does not exceed the number
of symbols the scan passes. -/
theorem main_eq_none_iff (sc : Bool) (fuel : Nat) (st : State) :
    main sc fuel st = none ↔ fuel ≤ symbolCount st.stdin := by
  constructor
  · intro h
    by_contra hlt
    rw [main_eq sc fuel st (by omega)] at h
    simp at h
  · intro h
    rw [main, P_eq_S, S_readChar_none sc st.stdin st fuel rfl h]

/-- From any state, `S` called on a symbol and returning has scanned to a terminator. -/
theorem S_returned_of_ab (sc : Bool) (f : Nat) (st st1 : State)
    (hab : st.CC = ord 'a' ∨ st.CC = ord 'b') (h : S sc f st = some (.returned st1)) :
    firstOther st.stdin = some (byte '.') ∧ st1 = scanState sc st := by
  cases f with
  | zero => simp [S] at h
  | succ f =>
    rw [S_step sc f st hab] at h
    have h2 := S_mono_add sc f _ _ h (symbolCount st.stdin + 1)
    rw [S_readChar sc st.stdin st _ rfl (by omega)] at h2
    by_cases hd : firstOther st.stdin = some (byte '.')
    · rw [if_pos hd, Option.some.injEq, Run.returned.injEq] at h2
      exact ⟨hd, h2.symm⟩
    · rw [if_neg hd] at h2
      simp [stop] at h2

/-- From any state, `S` gives a result when the fuel exceeds the length of the unread
stream by two. -/
theorem S_total (sc : Bool) (st : State) (k : Nat) :
    ∃ r, S sc (st.stdin.length + 2 + k) st = some r := by
  by_cases hab : st.CC = ord 'a' ∨ st.CC = ord 'b'
  · have e : st.stdin.length + 2 + k = (st.stdin.length + 1 + k) + 1 := by omega
    rw [e, S_step sc _ st hab, S_readChar sc st.stdin st _ rfl
      (by have := symbolCount_le_length st.stdin; omega)]
    exact ⟨_, rfl⟩
  · have e : st.stdin.length + 2 + k = (st.stdin.length + 1 + k) + 1 := by omega
    rw [e, S_other sc _ st hab]
    split <;> exact ⟨_, rfl⟩

/-- The scan passes no more symbols than the input has. -/
theorem symbolCount_le_countAB (l : List Byte) : symbolCount l ≤ countAB l := by
  unfold symbolCount countAB
  exact ((List.takeWhile_prefix isPassed).sublist.filter isAB).length_le

/-- The recursion of `S` and the loop of the spec's design compute the same thing. -/
theorem S_eq_recognizeByLoop (sc : Bool) : ∀ (fuel : Nat) (st : State),
    S sc fuel st = recognizeByLoop sc fuel st := by
  intro fuel
  induction fuel with
  | zero => intro st; rfl
  | succ f ih =>
    intro st
    by_cases hab : st.CC = ord 'a' ∨ st.CC = ord 'b'
    · have ht : transition st.CC = .Repeating := by simp [transition, hab]
      rw [S_step sc f st hab, ih]
      simp only [recognizeByLoop, repeatLoop, ht]
    · rw [S_other sc f st hab]
      by_cases hd : st.CC = ord '.'
      · have ht : transition st.CC = .Terminated := by
          rw [transition, if_neg hab, if_pos hd]
        simp only [recognizeByLoop, repeatLoop, ht, if_pos hd]
      · have ht : transition st.CC = .Error := by
          rw [transition, if_neg hab, if_neg hd]
        simp only [recognizeByLoop, repeatLoop, ht, if_neg hd]
        rfl

/-- Whenever `S` returns, it has written nothing. -/
theorem S_returned_stdout (sc : Bool) : ∀ (f : Nat) (st st1 : State),
    S sc f st = some (.returned st1) → st1.stdout = st.stdout := by
  intro f
  induction f with
  | zero => intro st st1 h; simp [S] at h
  | succ f ih =>
    intro st st1 h
    by_cases hab : st.CC = ord 'a' ∨ st.CC = ord 'b'
    · rw [S_step sc f st hab] at h
      rw [ih _ st1 h, readChar_stdout]
    · rw [S_other sc f st hab] at h
      by_cases hd : st.CC = ord '.'
      · rw [if_pos hd, Option.some.injEq, Run.returned.injEq] at h
        rw [← h]
      · rw [if_neg hd] at h
        simp [stop] at h

/-- Every way in which `main` ends: with success after `Correct sentence.`, or through
the `stop` of `S`. -/
theorem main_exited (sc : Bool) (fuel : Nat) (st st1 : State) (status : ExitStatus)
    (h : main sc fuel st = some (.exited status st1)) :
    (status = .EXIT_SUCCESS ∧ st1.stdout = st.stdout ++ "\nCorrect sentence.\n") ∨
    (status = .EXIT_FAILURE ∧ st1.stdout = st.stdout ++ "\nSyntax error: " ++ msgS ++ "\n") := by
  rw [main, P_eq_S] at h
  cases hS : S sc fuel (readChar sc st) with
  | none => rw [hS] at h; simp at h
  | some r =>
    rw [hS] at h
    cases r with
    | returned st2 =>
      simp only [Option.some.injEq, Run.exited.injEq] at h
      obtain ⟨h1, h2⟩ := h
      left
      refine ⟨h1.symm, ?_⟩
      rw [← h2]
      simp only
      rw [S_returned_stdout sc fuel _ st2 hS, readChar_stdout]
    | exited status2 st2 =>
      simp only [Option.some.injEq, Run.exited.injEq] at h
      obtain ⟨h1, h2⟩ := h
      right
      have := S_exited sc fuel _ st2 status2 hS
      rw [readChar_stdout] at this
      rw [← h1, ← h2]
      exact this

/-- The three possible observations of a run of the program on an input. -/
theorem outcome_main_cases (sc : Bool) (fuel : Nat) (input : List Byte) :
    outcome (main sc fuel (initState input)) = none ∨
    outcome (main sc fuel (initState input)) = some (.EXIT_SUCCESS, "\nCorrect sentence.\n") ∨
    outcome (main sc fuel (initState input)) =
      some (.EXIT_FAILURE, "\nSyntax error: " ++ msgS ++ "\n") := by
  by_cases hf : fuel ≤ symbolCount input
  · left
    rw [(main_eq_none_iff sc fuel (initState input)).2 hf]
    rfl
  · right
    rw [outcome_main sc fuel input (by omega)]
    split
    · exact Or.inl rfl
    · exact Or.inr rfl

/-- The scan of an input whose first byte after spaces, `a`s and `b`s is the
terminator. -/
theorem scanState_of_split (sc : Bool) (pre suf : List Byte)
    (hpre : ∀ c ∈ pre, c = byte ' ' ∨ c = byte 'a' ∨ c = byte 'b') :
    firstOther (pre ++ byte '.' :: suf) = some (byte '.') ∧
    scanState sc (initState (pre ++ byte '.' :: suf)) = ⟨ord '.', suf, "", pre.length + 1⟩ := by
  have hp : ∀ c ∈ pre, isPassed c = true := fun c hc => (isPassed_iff c).2 (hpre c hc)
  have hdot : isPassed (byte '.') = false := by decide
  obtain ⟨h1, h2, _⟩ := scan_append pre (byte '.') suf hp hdot
  refine ⟨h2, ?_⟩
  rw [scanState_initState, ← firstOther_at_stopIndex, h2, h1]
  have hcc : toChar sc (intOf (some (byte '.'))) = ord '.' := (toChar_eq_dot sc _).2 rfl
  rw [hcc]
  simp

/-- The advance that `T` makes under the guard of `S` consumes the symbol in the
lookahead: the measure `pending` strictly decreases. -/
theorem pending_readChar_lt (sc : Bool) (st : State)
    (hab : st.CC = ord 'a' ∨ st.CC = ord 'b') :
    pending (readChar sc st) < pending st := by
  have hst : pending st = st.stdin.length + 1 := by rw [pending, if_pos hab]
  rw [hst, readChar, readCharLoop_eq, pending]
  simp only
  cases hdw : st.stdin.dropWhile isSpace with
  | nil =>
    have h1 := toChar_EOF_ne sc 97 (by omega)
    have h2 := toChar_EOF_ne sc 98 (by omega)
    simp [intOf, ord_a, ord_b, h1, h2]
  | cons b t =>
    have hlen : (st.stdin.dropWhile isSpace).length ≤ st.stdin.length :=
      (List.dropWhile_suffix isSpace).length_le
    rw [hdw] at hlen
    simp only [List.length_cons] at hlen
    simp only [List.tail_cons]
    split <;> omega

/-! ## The claims -/

/-- C1: every input obtained from a word of `(a|b)*` followed by `.` by inserting
spaces before, between or after its symbols is accepted: the run of `main`, given fuel
for the symbols it passes, exits with the success status after writing
`Correct sentence.`, and `stop` is not called. -/
theorem C1_language_accepted (sc : Bool) (fuel : Nat) (input : List Byte)
    (hin : InLanguage input) (hf : symbolCount input < fuel) :
    Accepted (main sc fuel (initState input)) ∧ ¬ Rejected (main sc fuel (initState input)) := by
  have ha : Accepted (main sc fuel (initState input)) :=
    (accepted_iff sc fuel input hf).2 (firstOther_of_inLanguage input hin)
  exact ⟨ha, fun hr => not_accepted_of_rejected _ hr ha⟩

/-- C1, at the inputs `a b a .` and `   a   b   .` of the spec's scenarios 1 and 5. -/
theorem C1_language_accepted_witness :
    (InLanguage (bytes "a b a .") ∧ symbolCount (bytes "a b a .") < 4 ∧
      Accepted (main true 4 (initState (bytes "a b a .")))) ∧
    (InLanguage (bytes "   a   b   .") ∧ symbolCount (bytes "   a   b   .") < 3 ∧
      Accepted (main false 3 (initState (bytes "   a   b   .")))) :=
  ⟨⟨by decide, by decide,
      (C1_language_accepted true 4 (bytes "a b a .") (by decide) (by decide)).1⟩,
   ⟨by decide, by decide,
      (C1_language_accepted false 3 (bytes "   a   b   .") (by decide) (by decide)).1⟩⟩

/-- C2 as stated fails: the inputs `a.b`, `..` and `a b a .` followed by a newline do
not match the pattern, yet the run on each of them is accepted and `stop` is not
called. -/
theorem C2_trailing_input_accepted :
    (¬ InLanguage (bytes "a.b") ∧ Accepted (main true 2 (initState (bytes "a.b"))) ∧
      ¬ Rejected (main true 2 (initState (bytes "a.b")))) ∧
    (¬ InLanguage (bytes "..") ∧ Accepted (main true 1 (initState (bytes ".."))) ∧
      ¬ Rejected (main true 1 (initState (bytes "..")))) ∧
    (¬ InLanguage (bytes "a b a .\n") ∧ Accepted (main true 4 (initState (bytes "a b a .\n"))) ∧
      ¬ Rejected (main true 4 (initState (bytes "a b a .\n")))) := by
  decide

/-- C2, amended: every input none of whose initial segments matches the pattern
`(a|b)*\.` with spaces inserted is rejected: given fuel for the symbols it passes, the
run calls `stop` and exits with the failure status, and it is not accepted. -/
theorem C2_rejected_without_matching_start (sc : Bool) (fuel : Nat) (input : List Byte)
    (hno : ∀ pre ∈ input.inits, ¬ InLanguage pre) (hf : symbolCount input < fuel) :
    Rejected (main sc fuel (initState input)) ∧ ¬ Accepted (main sc fuel (initState input)) := by
  have hne : firstOther input ≠ some (byte '.') := by
    intro h
    obtain ⟨pre, hpre, hin⟩ := exists_inits_inLanguage input h
    exact hno pre hpre hin
  have hr : Rejected (main sc fuel (initState input)) :=
    Or.inr (Or.inl ((rejectedWith_msgS_iff sc fuel input hf).2 hne))
  exact ⟨hr, not_accepted_of_rejected _ hr⟩

/-- C2 amended, at the input `a b c .`. -/
theorem C2_rejected_without_matching_start_witness :
    (∀ pre ∈ (bytes "a b c .").inits, ¬ InLanguage pre) ∧
      symbolCount (bytes "a b c .") < 3 ∧
      Rejected (main true 3 (initState (bytes "a b c ."))) ∧
      ¬ Accepted (main true 3 (initState (bytes "a b c ."))) :=
  ⟨by decide, by decide,
    C2_rejected_without_matching_start true 3 (bytes "a b c .") (by decide) (by decide)⟩

/-- C3: whenever the run on an input is rejected, it ended at the first byte that is
not a space, `a` or `b`, at position `k = stopIndex input`: every byte before `k` is a
space, `a` or `b` and the byte at `k` (if any) is not; `CC` holds that byte (the
narrowed `EOF` if the input has no such byte); exactly `k + 1` calls of `getchar` were
made and the unread stream is the input from position `k + 1` on.  Moreover every input
that agrees with it on the first `k + 1` bytes has the same outcome and ends with the
same `CC` after the same number of reads. -/
theorem C3_rejection_at_first_deviation (sc : Bool) (fuel : Nat) (input : List Byte)
    (hf : symbolCount input < fuel) (hrej : Rejected (main sc fuel (initState input))) :
    (∃ st, main sc fuel (initState input) = some (.exited .EXIT_FAILURE st) ∧
      (∀ c ∈ input.take (stopIndex input), c = byte ' ' ∨ c = byte 'a' ∨ c = byte 'b') ∧
      (∀ c, input[stopIndex input]? = some c → ¬ (c = byte ' ' ∨ c = byte 'a' ∨ c = byte 'b')) ∧
      st.CC = toChar sc (intOf input[stopIndex input]?) ∧
      st.calls = stopIndex input + 1 ∧
      st.stdin = input.drop (stopIndex input + 1) ∧
      ∀ input2 : List Byte, stopIndex input < input.length →
        input2.take (stopIndex input + 1) = input.take (stopIndex input + 1) →
        ∃ st2, main sc fuel (initState input2) = some (.exited .EXIT_FAILURE st2) ∧
          st2.stdout = st.stdout ∧ st2.CC = st.CC ∧ st2.calls = st.calls ∧
          st2.stdin = input2.drop (stopIndex input + 1)) := by
  have hne : firstOther input ≠ some (byte '.') := by
    intro h
    exact not_accepted_of_rejected _ hrej ((accepted_iff sc fuel input hf).2 h)
  have hmain := main_eq sc fuel (initState input) hf
  simp only [initState] at hmain
  simp only [initState, hne, if_false] at hmain
  refine ⟨_, hmain, passed_before_stopIndex input, other_at_stopIndex input, ?_, ?_, ?_, ?_⟩
  · simp [scanState, firstOther_at_stopIndex]
  · simp [scanState]
  · simp [scanState, dropWhile_eq_drop, List.tail_drop]
  · intro input2 hlt htake
    obtain ⟨e1, e2, e3⟩ := scan_of_take_eq input input2 hlt htake
    have hf2 : symbolCount input2 < fuel := by rw [e3]; exact hf
    have hmain2 := main_eq sc fuel (initState input2) hf2
    simp only [initState] at hmain2
    simp only [initState, e2, hne, if_false] at hmain2
    refine ⟨_, hmain2, ?_, ?_, ?_, ?_⟩
    · simp [scanState]
    · simp [scanState, e2]
    · simp [scanState, e1]
    · simp [scanState, dropWhile_eq_drop, List.tail_drop, e1]

/-- C3, at the input `a b c .`, whose first three symbols end at position 4. -/
theorem C3_rejection_at_first_deviation_witness :
    symbolCount (bytes "a b c .") < 3 ∧ Rejected (main true 3 (initState (bytes "a b c ."))) ∧
    stopIndex (bytes "a b c .") = 4 ∧
    ∃ st, main true 3 (initState (bytes "a b c .")) = some (.exited .EXIT_FAILURE st) ∧
      st.CC = ord 'c' ∧ st.calls = 5 ∧ st.stdin = bytes " ." := by
  obtain ⟨st, h1, _, _, h2, h3, h4, _⟩ :=
    C3_rejection_at_first_deviation true 3 (bytes "a b c .") (by decide) (by decide)
  exact ⟨by decide, by decide, by decide, st, h1, h2.trans (by decide), h3.trans (by decide),
    h4.trans (by decide)⟩

/-- C4: on the input `.` alone the advance of `main` leaves the lookahead `.`; `S`
returns at once through its empty branch, with the state unchanged; the check of `P`
succeeds; and the run is accepted. -/
theorem C4_terminator_alone (sc : Bool) (fuel : Nat) :
    readChar sc (initState (bytes ".")) = ⟨ord '.', [], "", 1⟩ ∧
    S sc (fuel + 1) ⟨ord '.', [], "", 1⟩ = some (.returned ⟨ord '.', [], "", 1⟩) ∧
    P sc (fuel + 1) ⟨ord '.', [], "", 1⟩ = some (.returned ⟨ord '.', [], "", 1⟩) ∧
    Accepted (main sc (fuel + 1) (initState (bytes "."))) := by
  have hc : symbolCount (bytes ".") < fuel + 1 := by
    have : symbolCount (bytes ".") = 0 := by decide
    omega
  have hrc : readChar sc (initState (bytes ".")) = ⟨ord '.', [], "", 1⟩ := by
    cases sc <;> decide
  have hS : S sc (fuel + 1) ⟨ord '.', [], "", 1⟩ = some (.returned ⟨ord '.', [], "", 1⟩) := by
    have h1 : ord '.' ≠ ord 'a' := by decide
    have h2 : ord '.' ≠ ord 'b' := by decide
    simp [S, h1, h2]
  refine ⟨hrc, hS, ?_, (accepted_iff sc _ _ hc).2 (by decide)⟩
  simp [P, hS]

/-- C5: every input that consists of `a`, `b` and spaces only is rejected with the
diagnostic of `S`, which names `a`, `b` and `.`: the run reads the whole input and
one end of stream, `CC` ends as the narrowed `EOF`, and `stop` is called as for any
other unexpected symbol. -/
theorem C5_unterminated_rejected (sc : Bool) (fuel : Nat) (input : List Byte)
    (hall : ∀ c ∈ input, c = byte ' ' ∨ c = byte 'a' ∨ c = byte 'b')
    (hf : symbolCount input < fuel) :
    RejectedWith "'a', 'b' or '.' expected." (main sc fuel (initState input)) ∧
    ∃ st, main sc fuel (initState input) = some (.exited .EXIT_FAILURE st) ∧
      st.CC = toChar sc EOF ∧ st.stdin = [] ∧ st.calls = input.length + 1 := by
  have hp : ∀ c ∈ input, isPassed c = true := fun c hc => (isPassed_iff c).2 (hall c hc)
  have hdw : input.dropWhile isPassed = [] := List.dropWhile_eq_nil_iff.2 hp
  have htw : input.takeWhile isPassed = input := List.takeWhile_eq_self_iff.2 hp
  have hne : firstOther input ≠ some (byte '.') := by simp [firstOther, hdw]
  refine ⟨(rejectedWith_msgS_iff sc fuel input hf).2 hne, ?_⟩
  have hmain := main_eq sc fuel (initState input) hf
  simp only [initState] at hmain
  simp only [initState, hne, if_false] at hmain
  refine ⟨_, hmain, ?_, ?_, ?_⟩
  · simp [scanState, firstOther, hdw, intOf]
  · simp [scanState, hdw]
  · simp [scanState, stopIndex, htw]

/-- C5, at the empty input and at the input `a b a` of the spec's scenario 4. -/
theorem C5_unterminated_rejected_witness :
    RejectedWith "'a', 'b' or '.' expected." (main true 1 (initState (bytes ""))) ∧
    RejectedWith "'a', 'b' or '.' expected." (main true 4 (initState (bytes "a b a"))) :=
  ⟨(C5_unterminated_rejected true 1 (bytes "") (by decide) (by decide)).1,
   (C5_unterminated_rejected true 4 (bytes "a b a") (by decide) (by decide)).1⟩

/-- C6 as stated fails: on `a b c .` the diagnostic is not the one that names `a` and
`b` only; the run is rejected with the diagnostic of `S`. -/
theorem C6_diagnostic_is_not_T :
    ¬ RejectedWith "'a' or 'b' expected." (main true 3 (initState (bytes "a b c ."))) ∧
    RejectedWith "'a', 'b' or '.' expected." (main true 3 (initState (bytes "a b c ."))) := by
  decide

/-- C6, amended: on `a b c .` the run is rejected at the third symbol `c`: `CC` holds
`c`, the five bytes up to `c` were read and ` .` is left unread, and the diagnostic
written is the one of `S`, naming `a`, `b` and `.`. -/
theorem C6_rejected_at_third_symbol (sc : Bool) (fuel : Nat) :
    main sc (fuel + 3) (initState (bytes "a b c .")) =
      some (.exited .EXIT_FAILURE
        ⟨ord 'c', bytes " .", "\nSyntax error: 'a', 'b' or '.' expected.\n", 5⟩) := by
  have hc : symbolCount (initState (bytes "a b c .")).stdin < fuel + 3 := by
    have : symbolCount (initState (bytes "a b c .")).stdin = 2 := by decide
    omega
  rw [main_eq sc (fuel + 3) _ hc]
  cases sc <;> decide

/-- C7: the run on an input and the run on the input with every space deleted end
with the same outcome (exit status and text written, hence the same diagnostic), and
that outcome is an acceptance or a rejection. -/
theorem C7_spaces_insignificant (sc : Bool) (fuel : Nat) (input : List Byte)
    (hf : symbolCount input < fuel) :
    outcome (main sc fuel (initState input)) =
      outcome (main sc fuel (initState (deleteSpaces input))) ∧
    (Accepted (main sc fuel (initState input)) ∨ Rejected (main sc fuel (initState input))) := by
  have hf2 : symbolCount (deleteSpaces input) < fuel := by
    rw [symbolCount_deleteSpaces]; exact hf
  refine ⟨?_, ?_⟩
  · rw [outcome_main sc fuel input hf, outcome_main sc fuel _ hf2, firstOther_deleteSpaces]
  · by_cases h : firstOther input = some (byte '.')
    · exact Or.inl ((accepted_iff sc fuel input hf).2 h)
    · exact Or.inr (Or.inr (Or.inl ((rejectedWith_msgS_iff sc fuel input hf).2 h)))

/-- C7, at the input `  a  b c .`, which is rejected with or without its spaces. -/
theorem C7_spaces_insignificant_witness :
    symbolCount (bytes "  a  b c .") < 3 ∧
    deleteSpaces (bytes "  a  b c .") = bytes "abc." ∧
    outcome (main true 3 (initState (bytes "  a  b c ."))) =
      outcome (main true 3 (initState (deleteSpaces (bytes "  a  b c .")))) :=
  ⟨by decide, by decide, (C7_spaces_insignificant true 3 (bytes "  a  b c .") (by decide)).1⟩

/-- C8: every input in which a tab or a newline occurs with no `.` before it is
rejected, and not accepted. -/
theorem C8_tab_newline_rejected (sc : Bool) (fuel : Nat) (pre suf : List Byte) (c : Byte)
    (hc : c = byte '\t' ∨ c = byte '\n') (hpre : byte '.' ∉ pre)
    (hf : symbolCount (pre ++ c :: suf) < fuel) :
    Rejected (main sc fuel (initState (pre ++ c :: suf))) ∧
    ¬ Accepted (main sc fuel (initState (pre ++ c :: suf))) := by
  have hr : Rejected (main sc fuel (initState (pre ++ c :: suf))) :=
    Or.inr (Or.inl ((rejectedWith_msgS_iff sc fuel _ hf).2
      (firstOther_ne_dot_of_mem pre suf c hc hpre)))
  exact ⟨hr, not_accepted_of_rejected _ hr⟩

/-- C8, at the inputs `a<tab>b.` and `a<newline>.`. -/
theorem C8_tab_newline_rejected_witness :
    (bytes "a" ++ byte '\t' :: bytes "b." = bytes "a\tb." ∧
      Rejected (main true 2 (initState (bytes "a" ++ byte '\t' :: bytes "b.")))) ∧
    (bytes "a" ++ byte '\n' :: bytes "." = bytes "a\n." ∧
      Rejected (main true 2 (initState (bytes "a" ++ byte '\n' :: bytes ".")))) :=
  ⟨⟨by decide, (C8_tab_newline_rejected true 2 (bytes "a") (bytes "b.") (byte '\t')
      (Or.inl rfl) (by decide) (by decide)).1⟩,
   ⟨by decide, (C8_tab_newline_rejected true 2 (bytes "a") (bytes ".") (byte '\n')
      (Or.inr rfl) (by decide) (by decide)).1⟩⟩

/-- C9: a run is a function of the input stream, not of the value `CC` holds when
`main` starts: for any two initial values of `CC`, the first advance of `main` gives
the same state, and the whole run of `main` gives the same result. -/
theorem C9_initial_CC_irrelevant (sc : Bool) (fuel : Nat) (cc1 cc2 : Int)
    (input : List Byte) (out : String) (n : Nat) :
    readChar sc ⟨cc1, input, out, n⟩ = readChar sc ⟨cc2, input, out, n⟩ ∧
    main sc fuel ⟨cc1, input, out, n⟩ = main sc fuel ⟨cc2, input, out, n⟩ := by
  have h := readChar_CC_irrelevant sc cc1 cc2 input out n
  exact ⟨h, by rw [main, main, h]⟩

/-- C10: `readChar` is a total function of the state: it discards the leading spaces
of the unread stream, sets `CC` to the narrowed first byte after them (to the narrowed
`EOF` when the stream is exhausted), leaves the stream just after that byte, having
called `getchar` once per byte taken (once more at end of stream), writes nothing, and
the `CC` it produces is never a space. -/
theorem C10_readChar (sc : Bool) (st : State) :
    readChar sc st =
      { CC := toChar sc (intOf (st.stdin.dropWhile isSpace).head?),
        stdin := (st.stdin.dropWhile isSpace).tail,
        stdout := st.stdout,
        calls := st.calls + (st.stdin.takeWhile isSpace).length + 1 } ∧
    (readChar sc st).CC ≠ ord ' ' := by
  have h := readCharLoop_eq sc st.stdin st
  refine ⟨h, ?_⟩
  rw [readChar, h]
  simp only
  cases hd : (st.stdin.dropWhile isSpace).head? with
  | none => rw [intOf, ord_space]; exact toChar_EOF_ne sc 32 (by omega)
  | some b =>
    have hb := List.head?_dropWhile_not isSpace st.stdin
    rw [hd] at hb
    simp only [isSpace, decide_eq_false_iff_not] at hb
    rw [intOf, Ne, toChar_eq_space]
    exact hb

/-- C11: the contract of `T`, from any state.  If the lookahead is `a` or `b`, `T`
returns after exactly one advance: the state is the one `readChar` gives, where `CC`
is the narrowed first byte after the leading spaces (the narrowed `EOF` at end of
stream).  If the lookahead is anything else, `T` ends the run through `stop` with the
failure status and the diagnostic naming `a` and `b`, with `CC`, the unread stream and
the count of reads unchanged. -/
theorem C11_T_contract (sc : Bool) (st : State) :
    ((st.CC = ord 'a' ∨ st.CC = ord 'b') →
      T sc st = .returned (readChar sc st) ∧
      readChar sc st =
        { CC := toChar sc (intOf (st.stdin.dropWhile isSpace).head?),
          stdin := (st.stdin.dropWhile isSpace).tail,
          stdout := st.stdout,
          calls := st.calls + (st.stdin.takeWhile isSpace).length + 1 }) ∧
    (¬ (st.CC = ord 'a' ∨ st.CC = ord 'b') →
      T sc st = .exited .EXIT_FAILURE
        { st with stdout := st.stdout ++ "\nSyntax error: " ++ "'a' or 'b' expected." ++ "\n" }) := by
  refine ⟨fun h => ⟨T_of_ab sc st h, readCharLoop_eq sc st.stdin st⟩, fun h => ?_⟩
  rw [T, if_neg h]
  rfl

/-- C11, at a state with lookahead `a` before `  b.` and at a state with lookahead
`.`. -/
theorem C11_T_contract_witness :
    T true ⟨ord 'a', bytes "  b.", "", 1⟩ = .returned ⟨ord 'b', bytes ".", "", 4⟩ ∧
    T true ⟨ord '.', bytes "x", "", 1⟩ =
      .exited .EXIT_FAILURE ⟨ord '.', bytes "x", "\nSyntax error: 'a' or 'b' expected.\n", 1⟩ :=
  ⟨((C11_T_contract true ⟨ord 'a', bytes "  b.", "", 1⟩).1 (by decide)).1.trans (by decide),
   ((C11_T_contract true ⟨ord '.', bytes "x", "", 1⟩).2 (by decide)).trans (by decide)⟩

/-- C12: `S` does not consume the terminator.  Entered with lookahead `.`, it returns
with the state unchanged.  And from any state, whenever `S` returns, the lookahead is
`.`, nothing was written, and either `S` was entered on that `.` and the state is
unchanged, or it was entered on `a` or `b` and the stream it was given is spaces,
`a`s and `b`s, then that `.`, then exactly the stream left unread. -/
theorem C12_S_keeps_terminator (sc : Bool) (fuel : Nat) (st : State) :
    (st.CC = ord '.' → S sc (fuel + 1) st = some (.returned st)) ∧
    (∀ st1, S sc fuel st = some (.returned st1) →
      st1.CC = ord '.' ∧ st1.stdout = st.stdout ∧
      ((st.CC = ord '.' ∧ st1 = st) ∨
       ((st.CC = ord 'a' ∨ st.CC = ord 'b') ∧
        ∃ pre : List Byte, (∀ c ∈ pre, c = byte ' ' ∨ c = byte 'a' ∨ c = byte 'b') ∧
          st.stdin = pre ++ byte '.' :: st1.stdin ∧
          st1.calls = st.calls + pre.length + 1))) := by
  constructor
  · intro hd
    have hab : ¬ (st.CC = ord 'a' ∨ st.CC = ord 'b') := by
      rw [hd]; decide
    rw [S_other sc fuel st hab, if_pos hd]
  · intro st1 h
    refine ⟨S_returned_CC sc fuel st st1 h, ?_⟩
    by_cases hab : st.CC = ord 'a' ∨ st.CC = ord 'b'
    · obtain ⟨hfo, hst1⟩ := S_returned_of_ab sc fuel st st1 hab h
      subst hst1
      refine ⟨rfl, Or.inr ⟨hab, st.stdin.takeWhile isPassed, ?_, ?_, rfl⟩⟩
      · intro c hc
        exact (isPassed_iff c).1 (List.mem_takeWhile_imp hc)
      · have hsplit := List.takeWhile_append_dropWhile isPassed st.stdin
        rw [firstOther] at hfo
        cases hdw : st.stdin.dropWhile isPassed with
        | nil => rw [hdw] at hfo; simp at hfo
        | cons x t =>
          rw [hdw] at hfo hsplit
          simp only [List.head?_cons, Option.some.injEq] at hfo
          subst hfo
          simp only [scanState, hdw, List.tail_cons]
          exact hsplit.symm
    · cases fuel with
      | zero => simp [S] at h
      | succ f =>
        rw [S_other sc f st hab] at h
        by_cases hd : st.CC = ord '.'
        · rw [if_pos hd, Option.some.injEq, Run.returned.injEq] at h
          subst h
          exact ⟨rfl, Or.inl ⟨hd, rfl⟩⟩
        · rw [if_neg hd] at h
          simp [stop] at h

/-- C12, at the state with lookahead `.` before `b`, and at the state with lookahead
`a` before ` b .x`, from which `S` returns with `x` unread. -/
theorem C12_S_keeps_terminator_witness :
    S true 1 ⟨ord '.', bytes "b", "", 1⟩ = some (.returned ⟨ord '.', bytes "b", "", 1⟩) ∧
    S true 3 ⟨ord 'a', bytes " b .x", "", 1⟩ = some (.returned ⟨ord '.', bytes "x", "", 5⟩) ∧
    (⟨ord '.', bytes "x", "", 5⟩ : State).CC = ord '.' :=
  ⟨(C12_S_keeps_terminator true 0 ⟨ord '.', bytes "b", "", 1⟩).1 (by decide),
   by decide,
   ((C12_S_keeps_terminator true 3 ⟨ord 'a', bytes " b .x", "", 1⟩).2
      ⟨ord '.', bytes "x", "", 5⟩ (by decide)).1⟩

/-- C13: the contract of `P`, from any state: `P` runs `S` and, when `S` returns,
makes its terminator check on the state `S` left (when `S` ends the run, so does `P`).
The check returns with the state unchanged, reading nothing, if the lookahead is
`.`, and for any other lookahead it ends the run through `stop` with the diagnostic
naming `.`.  In particular `P` entered on `.` returns with the state unchanged. -/
theorem C13_P_contract (sc : Bool) (fuel : Nat) (st : State) :
    P sc fuel st =
      (match S sc fuel st with
        | none => none
        | some (.returned st1) => some (terminatorCheck st1)
        | some (.exited status st1) => some (.exited status st1)) ∧
    (∀ st1 : State, st1.CC = ord '.' → terminatorCheck st1 = .returned st1) ∧
    (∀ st1 : State, st1.CC ≠ ord '.' →
      terminatorCheck st1 = .exited .EXIT_FAILURE
        { st1 with stdout := st1.stdout ++ "\nSyntax error: " ++ "'.' expected." ++ "\n" }) ∧
    (st.CC = ord '.' → P sc (fuel + 1) st = some (.returned st)) := by
  refine ⟨P_eq sc fuel st, ?_, ?_, ?_⟩
  · intro st1 h
    rw [terminatorCheck, if_pos h]
  · intro st1 h
    rw [terminatorCheck, if_neg h]
    rfl
  · intro hd
    have hab : ¬ (st.CC = ord 'a' ∨ st.CC = ord 'b') := by
      rw [hd]; decide
    rw [P_eq_S, S_other sc fuel st hab, if_pos hd]

/-- C13, at states with lookahead `.` and with lookahead `a`. -/
theorem C13_P_contract_witness :
    terminatorCheck ⟨ord '.', bytes "b", "", 1⟩ = .returned ⟨ord '.', bytes "b", "", 1⟩ ∧
    terminatorCheck ⟨ord 'a', bytes "b", "", 1⟩ =
      .exited .EXIT_FAILURE ⟨ord 'a', bytes "b", "\nSyntax error: '.' expected.\n", 1⟩ ∧
    P true 1 ⟨ord '.', bytes "b", "", 1⟩ = some (.returned ⟨ord '.', bytes "b", "", 1⟩) :=
  ⟨(C13_P_contract true 0 ⟨ord '.', bytes "b", "", 1⟩).2.1 _ (by decide),
   ((C13_P_contract true 0 ⟨ord '.', bytes "b", "", 1⟩).2.2.1 ⟨ord 'a', bytes "b", "", 1⟩
      (by decide)).trans (by decide),
   (C13_P_contract true 0 ⟨ord '.', bytes "b", "", 1⟩).2.2.2 (by decide)⟩

/-- C14: the right-recursive `S` followed by the check of `P` is the explicit loop of
the spec's design: from every state (lookahead and stream) and with every bound, `P`
and `recognizeByLoop` give the same result, hence the same outcome, diagnostic, final
lookahead and unread stream; so do `main` and the machine started in `Start`; and the
result exists once the bound exceeds the length of the unread stream by two. -/
theorem C14_recursion_is_loop (sc : Bool) (fuel : Nat) (st : State) :
    P sc fuel st = recognizeByLoop sc fuel st ∧
    main sc fuel st = mainByLoop sc fuel st ∧
    ∃ r, P sc (st.stdin.length + 2 + fuel) st = some r := by
  have h : ∀ (n : Nat) (s0 : State), P sc n s0 = recognizeByLoop sc n s0 :=
    fun n s0 => (P_eq_S sc n s0).trans (S_eq_recognizeByLoop sc n s0)
  refine ⟨h fuel st, ?_, ?_⟩
  · rw [main, mainByLoop, h]
  · rw [P_eq_S]
    exact S_total sc st fuel

/-- C15: termination.  On every input, with fuel for one activation of `S` more
than the input has `a`/`b` symbols, the run of `main` ends, and it ends either
accepted or rejected, never both.  The narrowed `EOF` is not a space, which ends the
loop of `readChar` at end of stream.  The nesting of `S` is measured exactly by the
symbols the scan passes: the run gives no result exactly when the fuel does not exceed
their number, and their number is at most the number of `a`/`b` symbols of the
input.  And the recursion is well-founded: the advance `T` makes before each recursive
call of `S` strictly decreases the bytes pending (unread, or a symbol in the
lookahead). -/
theorem C15_termination (sc : Bool) (fuel : Nat) (input : List Byte)
    (hf : countAB input < fuel) :
    ((Accepted (main sc fuel (initState input)) ∨ Rejected (main sc fuel (initState input))) ∧
      ¬ (Accepted (main sc fuel (initState input)) ∧
          Rejected (main sc fuel (initState input)))) ∧
    toChar sc EOF ≠ ord ' ' ∧
    symbolCount input ≤ countAB input ∧
    (∀ n, main sc n (initState input) = none ↔ n ≤ symbolCount input) ∧
    (∀ st : State, (st.CC = ord 'a' ∨ st.CC = ord 'b') →
      T sc st = .returned (readChar sc st) ∧ pending (readChar sc st) < pending st) := by
  have hle := symbolCount_le_countAB input
  have hf1 : symbolCount input < fuel := by omega
  refine ⟨⟨?_, fun h => not_accepted_of_rejected _ h.2 h.1⟩, ?_, hle,
    fun n => main_eq_none_iff sc n (initState input),
    fun st hab => ⟨T_of_ab sc st hab, pending_readChar_lt sc st hab⟩⟩
  · by_cases h : firstOther input = some (byte '.')
    · exact Or.inl ((accepted_iff sc fuel input hf1).2 h)
    · exact Or.inr (Or.inr (Or.inl ((rejectedWith_msgS_iff sc fuel input hf1).2 h)))
  · rw [ord_space]
    exact toChar_EOF_ne sc 32 (by omega)

/-- C15, at the input `a b a .`, which has three symbols: fuel 4 gives a result; and
at the state with lookahead `a` before ` b`, where the advance decreases the measure. -/
theorem C15_termination_witness :
    countAB (bytes "a b a .") < 4 ∧
    (Accepted (main true 4 (initState (bytes "a b a ."))) ∨
      Rejected (main true 4 (initState (bytes "a b a .")))) ∧
    pending (readChar true ⟨ord 'a', bytes " b", "", 1⟩) < pending ⟨ord 'a', bytes " b", "", 1⟩ :=
  ⟨by decide, (C15_termination true 4 (bytes "a b a .") (by decide)).1.1,
   ((C15_termination true 4 (bytes "a b a .") (by decide)).2.2.2.2
      ⟨ord 'a', bytes " b", "", 1⟩ (by decide)).2⟩

/-- C16: the exact acceptance condition.  A run with enough fuel is accepted exactly
when the first byte of the input that is not a space, `a` or `b` exists and is `.`,
that is, exactly when the input is spaces, `a`s and `b`s, then `.`, then any suffix;
and on such an input the run ends with the suffix unread, after one read per byte up
to that `.`, in a state that depends on the suffix only through the unread stream. -/
theorem C16_exact_acceptance (sc : Bool) (fuel : Nat) (input : List Byte)
    (hf : symbolCount input < fuel) :
    (Accepted (main sc fuel (initState input)) ↔ firstOther input = some (byte '.')) ∧
    (Accepted (main sc fuel (initState input)) ↔
      ∃ pre suf : List Byte, (∀ c ∈ pre, c = byte ' ' ∨ c = byte 'a' ∨ c = byte 'b') ∧
        input = pre ++ byte '.' :: suf) ∧
    (∀ pre suf : List Byte, (∀ c ∈ pre, c = byte ' ' ∨ c = byte 'a' ∨ c = byte 'b') →
      input = pre ++ byte '.' :: suf →
      main sc fuel (initState input) =
        some (.exited .EXIT_SUCCESS ⟨ord '.', suf, "\nCorrect sentence.\n", pre.length + 1⟩)) := by
  have hacc := accepted_iff sc fuel input hf
  refine ⟨hacc, ?_, ?_⟩
  · rw [hacc]
    constructor
    · intro h
      refine ⟨input.takeWhile isPassed, (input.dropWhile isPassed).tail, ?_, ?_⟩
      · intro c hc
        exact (isPassed_iff c).1 (List.mem_takeWhile_imp hc)
      · have hsplit := List.takeWhile_append_dropWhile isPassed input
        rw [firstOther] at h
        cases hdw : input.dropWhile isPassed with
        | nil => rw [hdw] at h; simp at h
        | cons x t =>
          rw [hdw] at h hsplit
          simp only [List.head?_cons, Option.some.injEq] at h
          subst h
          exact hsplit.symm
    · rintro ⟨pre, suf, hpre, rfl⟩
      exact (scanState_of_split sc pre suf hpre).1
  · intro pre suf hpre hin
    subst hin
    obtain ⟨h1, h2⟩ := scanState_of_split sc pre suf hpre
    have hmain := main_eq sc fuel (initState (pre ++ byte '.' :: suf)) hf
    simp only [initState] at hmain h1 h2
    simp only [initState]
    rw [hmain, if_pos h1, h2]
    rfl

/-- C16, at the input `a b .b.`, accepted with `b.` left unread. -/
theorem C16_exact_acceptance_witness :
    symbolCount (bytes "a b .b.") < 3 ∧
    firstOther (bytes "a b .b.") = some (byte '.') ∧
    Accepted (main true 3 (initState (bytes "a b .b."))) ∧
    main true 3 (initState (bytes "a b .b.")) =
      some (.exited .EXIT_SUCCESS ⟨ord '.', bytes "b.", "\nCorrect sentence.\n", 5⟩) :=
  ⟨by decide, by decide,
   (C16_exact_acceptance true 3 (bytes "a b .b.") (by decide)).1.2 (by decide),
   (C16_exact_acceptance true 3 (bytes "a b .b.") (by decide)).2.2 (bytes "a b ") (bytes "b.")
      (by decide) (by decide)⟩

/-- C17: the error branches of `T` and of `P` are not reachable.  `S` unfolds without
the error branch of `T`, which it calls only under its own guard; the check of `P`
never fails, so `P` ends as `S` does; every run of `main` that ends does so with
success after `Correct sentence.` or through the `stop` of `S`; and on every input the
run is rejected neither with the diagnostic of `T` nor with that of `P`, every
rejection carrying the diagnostic of `S`. -/
theorem C17_only_S_rejects (sc : Bool) (fuel : Nat) (st : State) :
    (S sc (fuel + 1) st =
      (if st.CC = ord 'a' ∨ st.CC = ord 'b' then S sc fuel (readChar sc st)
       else if st.CC = ord '.' then some (.returned st)
       else some (stop "'a', 'b' or '.' expected." st))) ∧
    P sc fuel st = S sc fuel st ∧
    (∀ (status : ExitStatus) (st1 : State), main sc fuel st = some (.exited status st1) →
      (status = .EXIT_SUCCESS ∧ st1.stdout = st.stdout ++ "\nCorrect sentence.\n") ∨
      (status = .EXIT_FAILURE ∧
        st1.stdout = st.stdout ++ "\nSyntax error: " ++ "'a', 'b' or '.' expected." ++ "\n")) ∧
    (∀ input : List Byte,
      ¬ RejectedWith "'a' or 'b' expected." (main sc fuel (initState input)) ∧
      ¬ RejectedWith "'.' expected." (main sc fuel (initState input)) ∧
      (Rejected (main sc fuel (initState input)) →
        RejectedWith "'a', 'b' or '.' expected." (main sc fuel (initState input)))) := by
  refine ⟨?_, P_eq_S sc fuel st, fun status st1 h => main_exited sc fuel st st1 status h, ?_⟩
  · by_cases hab : st.CC = ord 'a' ∨ st.CC = ord 'b'
    · rw [S_step sc fuel st hab, if_pos hab]
    · rw [S_other sc fuel st hab, if_neg hab]
      rfl
  · intro input
    have hT : ¬ RejectedWith "'a' or 'b' expected." (main sc fuel (initState input)) := by
      intro h
      rw [RejectedWith] at h
      rcases outcome_main_cases sc fuel input with h1 | h1 | h1 <;> rw [h1] at h <;>
        revert h <;> decide
    have hP : ¬ RejectedWith "'.' expected." (main sc fuel (initState input)) := by
      intro h
      rw [RejectedWith] at h
      rcases outcome_main_cases sc fuel input with h1 | h1 | h1 <;> rw [h1] at h <;>
        revert h <;> decide
    refine ⟨hT, hP, ?_⟩
    rintro (h | h | h)
    · exact absurd h hT
    · exact h
    · exact absurd h hP

/-- C17, at the input `a b c .`, whose rejection carries the diagnostic of `S`. -/
theorem C17_only_S_rejects_witness :
    Rejected (main true 3 (initState (bytes "a b c ."))) ∧
    RejectedWith "'a', 'b' or '.' expected." (main true 3 (initState (bytes "a b c ."))) ∧
    main true 3 (initState (bytes "a b c .")) =
      some (.exited .EXIT_FAILURE
        ⟨ord 'c', bytes " .", "\nSyntax error: 'a', 'b' or '.' expected.\n", 5⟩) ∧
    ((ExitStatus.EXIT_FAILURE = .EXIT_SUCCESS ∧
        "\nSyntax error: 'a', 'b' or '.' expected.\n" = "" ++ "\nCorrect sentence.\n") ∨
      (ExitStatus.EXIT_FAILURE = .EXIT_FAILURE ∧
        "\nSyntax error: 'a', 'b' or '.' expected.\n" =
          "" ++ "\nSyntax error: " ++ "'a', 'b' or '.' expected." ++ "\n")) :=
  ⟨by decide,
   ((C17_only_S_rejects true 3 (initState (bytes "a b c ."))).2.2.2 (bytes "a b c .")).2.2
      (by decide),
   by decide,
   (C17_only_S_rejects true 3 (initState (bytes "a b c ."))).2.2.1 .EXIT_FAILURE
      ⟨ord 'c', bytes " .", "\nSyntax error: 'a', 'b' or '.' expected.\n", 5⟩ (by decide)⟩

end LL1
